import Mathlib

/-!
Verification development for the cyipopt scipy interface layer
(`cyipopt/scipy_interface.py`).

The embedding models the adapter over exact rationals: a numpy 1-D array
is a `List ℚ`, a 2-D array is a `List (List ℚ)` of rows (row-major, C
order), and a scipy `coo_array` is a record of shape, coordinate arrays
and data. Python exceptions are modelled with `Except String`; an
operation whose behaviour at an input the source would crash on (for
example calling `.data` on a plain ndarray where a sparse matrix was
recorded) is modelled with `Option`. Extra positional and keyword
arguments (`args`, `kwargs`) that the source threads verbatim into each
user callback are folded into the callback closures.

Each setup helper additionally returns, per constraint group, the number
of times that groups user evaluator `fun` is invoked by that helper:
every increment corresponds to one syntactic `con['fun'](x0, ...)` call
in the source, so the counts are part of the faithful translation and
let us reason about how often the evaluator runs during the one-time
setup of `minimize_ipopt`.
-/

namespace Cyipopt

/-- A 1-D numpy array of floats, modelled as a list of rationals. -/
abbrev Vec := List ℚ

/-- A 2-D numpy array, row-major list of rows. -/
abbrev Mat := List (List ℚ)

/-- A scipy sparse matrix in COO (coordinate) format: shape plus three
parallel arrays of row indices, column indices and stored values, in
the order the object enumerates its entries. -/
structure Coo where
  nrows : Nat
  ncols : Nat
  row : List Nat
  col : List Nat
  data : List ℚ
  deriving Repr

/-- Result of evaluating a user supplied constraint Jacobian callable:
either a dense ndarray or a scipy `coo_array`. The source decides which
with an `isinstance(jac_val, coo_array)` check. -/
inductive JacResult where
  | dense (m : Mat)
  | sparse (c : Coo)

/-- The `jac` entry of a constraint dict: absent or falsy (`None`,
`False`), the literal `True` (the constraint `fun` then returns a
`(value, jacobian)` pair), or a callable. -/
inductive JacDecl where
  | noJac
  | joint
  | callable (j : Vec → JacResult)

/-- One scipy-style constraint dict. `cfun` is the value half of
`con['fun']`; when `jac` is `joint` the source `con['fun']` returns the
pair `(cfun x, cjac x)` and `cjac` is its Jacobian half (unused
otherwise). `ctype` is `con['type']` and `chess` is the optional
`con['hess']`, with extra args folded into the closures. -/
structure ConSpec where
  cfun : Vec → Vec
  cjac : Vec → JacResult
  jac : JacDecl
  ctype : String
  chess : Option (Vec → Vec → Mat)

/-- `np.ones((p, n))`. -/
def onesMat (p n : Nat) : Mat :=
  List.replicate p (List.replicate n (1 : ℚ))

/-- `np.ones_like(m)` for a 2-D array. -/
def ones_like (m : Mat) : Mat :=
  m.map (fun r => r.map (fun _ => (1 : ℚ)))

/-- `scipy.sparse.coo_array(dense)`: enumerate the nonzero entries of a
dense 2-D array in row-major (C) order, recording coordinates and
values. The shape is that of the dense array. -/
def cooOfDense (m : Mat) : Coo :=
  let entries := m.enum.flatMap (fun ir =>
    ir.2.enum.filterMap (fun jv =>
      if jv.2 ≠ 0 then some (ir.1, jv.1, jv.2) else none))
  { nrows := m.length
    ncols := (m.headD []).length
    row := entries.map (fun e => e.1)
    col := entries.map (fun e => e.2.1)
    data := entries.map (fun e => e.2.2) }

/-- `scipy.sparse.vstack(blocks)` restricted to COO blocks: stacks the
blocks vertically, shifting each blocks row indices by the number of
rows of the blocks above it, and concatenating coordinate and data
arrays in block order. -/
def vstackCoo (blocks : List Coo) : Coo :=
  blocks.foldl
    (fun J b =>
      { nrows := J.nrows + b.nrows
        ncols := max J.ncols b.ncols
        row := J.row ++ b.row.map (fun r => r + J.nrows)
        col := J.col ++ b.col
        data := J.data ++ b.data })
    { nrows := 0, ncols := 0, row := [], col := [], data := [] }

/-- `np.hstack(list_of_1d_arrays)`: concatenation; on an empty list
numpy raises `ValueError: need at least one array to concatenate`,
modelled as `none`. -/
def np_hstack (ls : List Vec) : Option Vec :=
  match ls with
  | [] => none
  | ls => some ls.flatten

/-- The constraint output dimension measurement shared by
`get_constraint_dimensions` and `get_constraint_bounds`
(scipy_interface.py lines 265-268 and 279-282): if `con` has `jac` set
to the literal `True`, `m = len(np.atleast_1d(con['fun'](x0, ...)[0]))`,
otherwise `m = len(np.atleast_1d(con['fun'](x0, ...)))`. Either branch
invokes `con['fun']` exactly once. -/
def conDim (con : ConSpec) (x0 : Vec) : Nat :=
  match con.jac with
  | .joint => (con.cfun x0).length
  | _ => (con.cfun x0).length

/-- `get_constraint_dimensions(constraints, x0)`, together with the
per-group count of `con['fun']` invocations (one per group). -/
def get_constraint_dimensions (cons : List ConSpec) (x0 : Vec) :
    List Nat × List Nat :=
  (cons.map (fun con => conDim con x0), cons.map (fun _ => 1))

/-- The large finite bound `1e19` used by `get_constraint_bounds` in
place of plus infinity (exactly representable as a float). -/
def bigBound : ℚ := 10 ^ 19

/-- `get_constraint_bounds(constraints, x0, INF)`: per group, `m` lower
bounds of `0` and `m` upper bounds of `0` for type `"eq"` or `INF` for
type `"ineq"`; any other type tag raises `ValueError(con['type'])`.
The second component counts, per processed group, the `con['fun']`
invocations (one each, performed before the type tag is inspected). -/
def get_constraint_bounds (cons : List ConSpec) (x0 : Vec) (inf : ℚ) :
    Except String (Vec × Vec) × List Nat :=
  match cons with
  | [] => (.ok ([], []), [])
  | con :: rest =>
    let m := conDim con x0
    if con.ctype = "eq" then
      match get_constraint_bounds rest x0 inf with
      | (.ok (cl, cu), cnts) =>
        (.ok (List.replicate m 0 ++ cl, List.replicate m 0 ++ cu), 1 :: cnts)
      | (.error e, cnts) => (.error e, 1 :: cnts)
    else if con.ctype = "ineq" then
      match get_constraint_bounds rest x0 inf with
      | (.ok (cl, cu), cnts) =>
        (.ok (List.replicate m 0 ++ cl, List.replicate m inf ++ cu), 1 :: cnts)
      | (.error e, cnts) => (.error e, 1 :: cnts)
    else
      (.error con.ctype, [1])

/-- The per-group body of `_get_sparse_jacobian_structure`
(scipy_interface.py lines 234-255): produce the is-sparse flag and the
COO block for one constraint, plus the number of `con['fun']`
invocations this takes (`1` when `jac` is the literal `True` or absent,
`0` when `jac` is a callable). A sparse evaluation keeps its native
coordinates; a dense one is replaced by
`coo_array(np.ones_like(np.atleast_2d(jac_val)))`; a group without a
Jacobian evaluator contributes
`coo_array(np.ones((con_val.size, x0.size)))`. -/
def jacBlock (con : ConSpec) (x0 : Vec) : (Bool × Coo) × Nat :=
  match con.jac with
  | .joint =>
    match con.cjac x0 with
    | .sparse c => ((true, c), 1)
    | .dense m => ((false, cooOfDense (ones_like m)), 1)
  | .callable j =>
    match j x0 with
    | .sparse c => ((true, c), 0)
    | .dense m => ((false, cooOfDense (ones_like m)), 0)
  | .noJac =>
    ((false, cooOfDense (onesMat (con.cfun x0).length x0.length)), 1)

/-- `_get_sparse_jacobian_structure(constraints, x0)`: per-group
is-sparse flags and the global row and column index arrays of the
vertically stacked Jacobian (empty for an empty constraint list, which
the source returns early for), plus the per-group `con['fun']`
invocation counts. -/
def get_sparse_jacobian_structure (cons : List ConSpec) (x0 : Vec) :
    (List Bool × List Nat × List Nat) × List Nat :=
  match cons with
  | [] => (([], [], []), [])
  | _ =>
    let blocks := cons.map (fun con => jacBlock con x0)
    let J := vstackCoo (blocks.map (fun b => b.1.2))
    ((blocks.map (fun b => b.1.1), J.row, J.col), blocks.map (fun b => b.2))

/-- Forward-difference approximation of the Jacobian of a (possibly
vector valued) function, as `scipy.optimize.approx_fprime` computes it:
entry `(i, j)` is `(f(x0 + eps e_j)[i] - f(x0)[i]) / eps`. Exact over
the rationals in this model. -/
def approx_fprime (x0 : Vec) (f : Vec → Vec) (eps : ℚ) : Mat :=
  let fx := f x0
  (List.range fx.length).map (fun i =>
    (List.range x0.length).map (fun j =>
      ((f (x0.mapIdx (fun k v => if k = j then v + eps else v))).getD i 0
        - fx.getD i 0) / eps))

/-- The scalar variant of `approx_fprime` used for the objective
gradient when no `jac` is supplied. -/
def approx_fprime_scalar (x0 : Vec) (f : Vec → ℚ) (eps : ℚ) : Vec :=
  (List.range x0.length).map (fun j =>
    (f (x0.mapIdx (fun k v => if k = j then v + eps else v)) - f x0) / eps)

/-- The state of an `IpoptProblemWrapper` instance: the stored objective
and gradient, the per-constraint callback lists built by the
constructor, the structural data passed in by `minimize_ipopt`, and the
three mutable evaluation counters. -/
structure Wrapper where
  ofun : Vec → ℚ
  ojac : Vec → Vec
  obj_hess : Option (Vec → Mat)
  con_funs : List (Vec → Vec)
  con_jacs : List (Vec → JacResult)
  con_hessians : List (Option (Vec → Vec → Mat))
  con_dims : List Nat
  sparse_jacs : List Bool
  jac_nnz_row : List Nat
  jac_nnz_col : List Nat
  nfev : Nat
  njev : Nat
  nit : Nat

/-- The objective `jac` argument of the wrapper constructor: absent
(`None`, finite differences are used), the literal `True` (the
objective returns a `(value, gradient)` pair, so `grad` is its gradient
half), or a callable. -/
inductive ObjJacDecl where
  | noJac
  | joint (grad : Vec → Vec)
  | callable (g : Vec → Vec)

/-- `IpoptProblemWrapper.__init__`. Raises `NotImplementedError` when
`hessp` is given, and (inside the per-constraint loop, so at the first
offending group) when the objective supplies a Hessian but the group
does not, or the group supplies one but the objective does not. On
success the stored per-constraint callback lists are in declaration
order; a group without a Jacobian callable gets the `approx_fprime`
lambda, and a `jac=True` group gets the `MemoizeJac(fun).derivative`
callable, whose value is the Jacobian half of the pair. -/
def mkWrapper (ofun : Vec → ℚ) (ojac : ObjJacDecl)
    (hess : Option (Vec → Mat)) (hessp : Option (Vec → Vec → Vec))
    (cons : List ConSpec) (eps : ℚ) (con_dims : List Nat)
    (sparse_jacs : List Bool) (jac_nnz_row jac_nnz_col : List Nat) :
    Except String Wrapper :=
  if hessp.isSome then
    .error "NotImplementedError: hessian times vector is not yet implemented"
  else if cons.any (fun con =>
      (hess.isSome && con.chess.isNone) || (hess.isNone && con.chess.isSome)) then
    .error "NotImplementedError: hessian has to be provided for the objective and all constraints"
  else
    .ok
      { ofun := ofun
        ojac :=
          match ojac with
          | .noJac => fun x => approx_fprime_scalar x ofun eps
          | .joint grad => grad
          | .callable g => g
        obj_hess := hess
        con_funs := cons.map (fun con => con.cfun)
        con_jacs := cons.map (fun con =>
          match con.jac with
          | .noJac => fun x => .dense (approx_fprime x con.cfun eps)
          | .joint => con.cjac
          | .callable j => j)
        con_hessians := cons.map (fun con => con.chess)
        con_dims := con_dims
        sparse_jacs := sparse_jacs
        jac_nnz_row := jac_nnz_row
        jac_nnz_col := jac_nnz_col
        nfev := 0
        njev := 0
        nit := 0 }

/-- `objective(self, x)`: bump `nfev`, return `fun(x, *args, **kwargs)`.
State change is modelled by returning the updated wrapper. -/
def Wrapper.objective (w : Wrapper) (x : Vec) : ℚ × Wrapper :=
  (w.ofun x, { w with nfev := w.nfev + 1 })

/-- `gradient(self, x)`: bump `njev`, return the stored `jac`
evaluation. -/
def Wrapper.gradient (w : Wrapper) (x : Vec) : Vec × Wrapper :=
  (w.ojac x, { w with njev := w.njev + 1 })

/-- `constraints(self, x)`: evaluate every stored constraint function at
`x` in declaration order and `np.hstack` the results (which raises on an
empty list). Reads no mutable state and writes none. -/
def Wrapper.constraints (w : Wrapper) (x : Vec) : Option Vec :=
  np_hstack (w.con_funs.map (fun f => f x))

/-- `jacobianstructure(self)`: the `(row, col)` pair stored at
construction. -/
def Wrapper.jacobianstructure (w : Wrapper) : List Nat × List Nat :=
  (w.jac_nnz_row, w.jac_nnz_col)

/-- `jacobian(self, x)`: per group, the native `.data` array of the
evaluated sparse Jacobian when the group was classified sparse, else
`np.atleast_2d(jac(x)).ravel()` (the row-major flattening of the dense
evaluation); the per-group value arrays are then stacked with
`np.hstack`. An evaluation whose dense/sparse kind contradicts the
stored classification is outside the modelled domain (`none`). -/
def Wrapper.jacobian (w : Wrapper) (x : Vec) : Option Vec := do
  let vals ← (w.con_jacs.zip w.sparse_jacs).mapM (fun ji =>
    if ji.2 then
      match ji.1 x with
      | .sparse c => some c.data
      | .dense _ => none
    else
      match ji.1 x with
      | .dense m => some m.flatten
      | .sparse _ => none)
  np_hstack vals

/-- `np.cumsum` on a list of naturals: entry `i` is the sum of the
first `i + 1` entries. -/
def np_cumsum (l : List Nat) : List Nat :=
  (List.range l.length).map (fun i => (l.take (i + 1)).sum)

/-- `np.split(ary, indices)` for a 1-D array and a list of split
points: with division points `0, indices..., len(ary)`, part `i` is the
slice from division point `i` to division point `i + 1` (Python slicing
clamps, and an empty slice results when the points are out of order). -/
def np_split (v : Vec) (indices : List Nat) : List Vec :=
  let div := 0 :: indices ++ [v.length]
  (List.range (indices.length + 1)).map (fun i =>
    (v.drop (div.getD i 0)).take (div.getD (i + 1) 0 - div.getD i 0))

/-- Elementwise sum of two equally shaped 2-D arrays (`H += ...`). -/
def matAdd (a b : Mat) : Mat :=
  List.zipWith (fun ra rb => List.zipWith (fun x y => x + y) ra rb) a b

/-- Scalar multiple of a 2-D array (`obj_factor * self.obj_hess(x)`). -/
def matSmul (c : ℚ) (a : Mat) : Mat :=
  a.map (fun r => r.map (fun v => c * v))

/-- `H[np.tril_indices(n)]`: the entries of `H` at positions
`(i, j)` with `j ≤ i < n`, in row-major order. -/
def trilValues (H : Mat) (n : Nat) : Vec :=
  ((List.range n).map (fun i =>
    (List.range (i + 1)).map (fun j => (H.getD i []).getD j 0))).flatten

/-- `hessian(self, x, lagrange, obj_factor)`: start from
`obj_factor * obj_hess(x)`, split the multiplier vector at
`np.cumsum(con_dims[:-1])`, add each constraint Hessian contribution in
declaration order (`zip` truncates to the shorter list), and return the
lower-triangular entries for `n = x.size`. `none` models the crash when
the objective Hessian or a needed constraint Hessian is absent. -/
def Wrapper.hessian (w : Wrapper) (x lagrange : Vec) (obj_factor : ℚ) :
    Option Vec := do
  let oh ← w.obj_hess
  let lagrs := np_split lagrange (np_cumsum w.con_dims.dropLast)
  let H ← (w.con_hessians.zip lagrs).foldlM
    (fun H hl => do
      let h ← hl.1
      pure (matAdd H (h x hl.2)))
    (matSmul obj_factor (oh x))
  pure (trilValues H x.length)

/-- `intermediate(self, ...)`: record the reported iteration count,
nothing else. -/
def Wrapper.intermediate (w : Wrapper) (iter_count : Nat) : Wrapper :=
  { w with nit := iter_count }

/-- One solver callback invocation on the adapter, with its arguments.
These are exactly the callbacks the external solver is handed. -/
inductive CallEvent where
  | objCall (x : Vec)
  | gradCall (x : Vec)
  | consCall (x : Vec)
  | jacCall (x : Vec)
  | jacStructCall
  | hessCall (x lagrange : Vec) (obj_factor : ℚ)
  | interCall (iter_count : Nat)

/-- The adapter state after one callback: `objective` and `gradient`
update their counters; `constraints`, `jacobian`, `jacobianstructure`
and `hessian` only read state; `intermediate` records the iteration
count. -/
def stepEvent (w : Wrapper) : CallEvent → Wrapper
  | .objCall x => (w.objective x).2
  | .gradCall x => (w.gradient x).2
  | .consCall _ => w
  | .jacCall _ => w
  | .jacStructCall => w
  | .hessCall _ _ _ => w
  | .interCall it => w.intermediate it

/-- The adapter state after a sequence of callbacks. -/
def runEvents (w : Wrapper) (es : List CallEvent) : Wrapper :=
  es.foldl stepEvent w

/-- Number of `objective` invocations in a callback sequence. -/
def countObj (es : List CallEvent) : Nat :=
  es.countP (fun e => match e with | .objCall _ => true | _ => false)

/-- Number of `gradient` invocations in a callback sequence. -/
def countGrad (es : List CallEvent) : Nat :=
  es.countP (fun e => match e with | .gradCall _ => true | _ => false)

/-- An ipopt option value: a string or a number (the source also
round-trips byte strings, which the model identifies with strings). -/
inductive OptVal where
  | str (s : String)
  | num (q : ℚ)
  deriving DecidableEq, Repr

/-- The options mapping, as an association list in insertion order. -/
abbrev Options := List (String × OptVal)

/-- Python `key in options` (dict keys are unique, so matching the
first occurrence is dict membership). -/
def optContains : Options → String → Bool
  | [], _ => false
  | kv :: t, k => kv.1 = k || optContains t k

/-- `options[key]` lookup, `none` when absent. -/
def optGet : Options → String → Option OptVal
  | [], _ => none
  | kv :: t, k => if kv.1 = k then some kv.2 else optGet t k

/-- `options[key] = value` on a Python dict: overwrite in place when
the key exists (keys are unique), append at the end otherwise. -/
def optSet : Options → String → OptVal → Options
  | [], k, v => [(k, v)]
  | kv :: t, k, v => if kv.1 = k then (k, v) :: t else kv :: optSet t k v

/-- `options.pop(key)`: remove the (unique) entry with the key. -/
def optPop : Options → String → Options
  | [], _ => []
  | kv :: t, k => if kv.1 = k then t else kv :: optPop t k

/-- `replace_option(options, oldname, newname)`: when `oldname` is
present and `newname` is not, move the value of `oldname` to
`newname`. -/
def replace_option (o : Options) (oldname newname : String) : Options :=
  if optContains o oldname then
    if ¬ optContains o newname then
      optSet (optPop o oldname) newname ((optGet o oldname).getD (.num 0))
    else o
  else o

/-- The scipy alias renames of `minimize_ipopt`
(scipy_interface.py lines 373-374): `disp` to `print_level`, then
`maxiter` to `max_iter`. -/
def renameOptions (o : Options) : Options :=
  replace_option (replace_option o "disp" "print_level") "maxiter" "max_iter"

/-- One `if key not in options: options[key] = value` defaulting
statement. -/
def defaultOption (o : Options) (k : String) (v : OptVal) : Options :=
  if ¬ optContains o k then optSet o k v else o

/-- The `tol` default value: the `tol` argument when truthy, `1e-8`
otherwise (Python `tol or 1e-8` treats both `None` and `0.0` as
falsy). -/
def tolDefault (tol : Option ℚ) : ℚ :=
  match tol with
  | none => 1 / 10 ^ 8
  | some t => if t = 0 then 1 / 10 ^ 8 else t

/-- The option finalisation block of `minimize_ipopt`
(scipy_interface.py lines 372-383), run after the wrapper is
constructed: rename `disp` and `maxiter`, default `print_level` to `0`,
default `tol`, default `mu_strategy` to `adaptive`, and, only when the
caller did not set `hessian_approximation` and both `hess` and `hessp`
are `None`, set `hessian_approximation` to `limited-memory`. -/
def finalizeOptions (hessNone hesspNone : Bool) (tol : Option ℚ)
    (options0 : Options) : Options :=
  let o1 := renameOptions options0
  let o2 := defaultOption o1 "print_level" (.num 0)
  let o3 := defaultOption o2 "tol" (.num (tolDefault tol))
  let o4 := defaultOption o3 "mu_strategy" (.str "adaptive")
  if ¬ optContains o4 "hessian_approximation" then
    if hessNone && hesspNone then
      optSet o4 "hessian_approximation" (.str "limited-memory")
    else o4
  else o4

/-- The `eps` value `minimize_ipopt` hands the wrapper constructor. -/
def eps0 : ℚ := 1 / 10 ^ 8

/-- The part of `minimize_ipopt` that runs before the solver is
invoked, excluding the external `cyipopt.Problem` construction and
option registration: constraint bounds, dimension probing, sparsity
structure discovery, wrapper construction (each able to raise), then
option finalisation. Returns the wrapper, the constraint bound arrays
and the finalised options. -/
def minimize_ipopt_pre (ofun : Vec → ℚ) (ojac : ObjJacDecl)
    (hess : Option (Vec → Mat)) (hessp : Option (Vec → Vec → Vec))
    (cons : List ConSpec) (x0 : Vec) (tol : Option ℚ)
    (options0 : Options) : Except String (Wrapper × (Vec × Vec) × Options) := do
  let (cl, cu) ← (get_constraint_bounds cons x0 bigBound).1
  let con_dims := (get_constraint_dimensions cons x0).1
  let (sparse_jacs, jac_nnz_row, jac_nnz_col) :=
    (get_sparse_jacobian_structure cons x0).1
  let w ← mkWrapper ofun ojac hess hessp cons eps0 con_dims sparse_jacs
    jac_nnz_row jac_nnz_col
  let opts := finalizeOptions hess.isNone hessp.isNone tol options0
  pure (w, (cl, cu), opts)

/-- The initial point as `minimize_ipopt` receives it: either a scalar
(a plain number or 0-d array, `np.asarray(x0).shape == ()`) or an array
of nonzero dimension. -/
inductive X0 where
  | scalar (v : ℚ)
  | arr (v : Vec)

/-- `np.atleast_1d(x0)`. -/
def np_atleast_1d : X0 → Vec
  | .scalar v => [v]
  | .arr v => v

/-- The `x` field of the returned `OptimizeResult`: a scalar or an
array. -/
inductive ResX where
  | scalar (q : ℚ)
  | arr (v : Vec)
  deriving DecidableEq, Repr

/-- The post-solve adjustment of `minimize_ipopt`
(scipy_interface.py lines 393-394): when the caller passed a scalar
initial point, replace the solver solution vector `x` by `x[0]` (an
IndexError on an empty vector); otherwise return it unchanged. -/
def minimize_solution_x (x0 : X0) (sol : Vec) : Except String ResX :=
  match x0 with
  | .scalar _ =>
    match sol with
    | [] => .error "IndexError"
    | q :: _ => .ok (.scalar q)
  | .arr _ => .ok (.arr sol)

/-- Total number of `con['fun']` invocations, per constraint group,
across the one-time setup calls of `minimize_ipopt`
(`get_constraint_bounds`, `get_constraint_dimensions`,
`_get_sparse_jacobian_structure`). -/
def setup_fun_calls (cons : List ConSpec) (x0 : Vec) : List Nat :=
  List.zipWith (fun a b => a + b)
    (List.zipWith (fun a b => a + b)
      (get_constraint_bounds cons x0 bigBound).2
      (get_constraint_dimensions cons x0).2)
    (get_sparse_jacobian_structure cons x0).2

/-- Claim-side helper: cut a vector into consecutive slices of the
given lengths (group `i` gets the slice at offset range from the sum of
the lengths before `i`, of length `dims i`). -/
def sliceByDims (l : Vec) : List Nat → List Vec
  | [] => []
  | d :: ds => l.take d :: sliceByDims (l.drop d) ds

/-- Concrete sample: a trivial objective. -/
def f0 : Vec → ℚ := fun _ => 0

/-- Concrete sample: a trivial gradient callable. -/
def g0 : Vec → Vec := fun _ => []

/-- Concrete sample: the wrapper built from `f0`, `g0`, no Hessian and
no constraints, with a nontrivial stored Jacobian structure. -/
def w9 : Wrapper :=
  { ofun := f0
    ojac := g0
    obj_hess := none
    con_funs := []
    con_jacs := []
    con_hessians := []
    con_dims := []
    sparse_jacs := []
    jac_nnz_row := [0]
    jac_nnz_col := [1]
    nfev := 0
    njev := 0
    nit := 0 }

/-- Projection of the finalised options out of a `minimize_ipopt_pre`
result (empty mapping on the error branch). -/
def preOpts : Except String (Wrapper × (Vec × Vec) × Options) → Options
  | .ok t => t.2.2
  | .error _ => []

/-- Concrete sample: an equality constraint of output dimension 1
without a Jacobian evaluator. -/
def conEq : ConSpec :=
  { cfun := fun x => [x.getD 0 0]
    cjac := fun _ => .dense []
    jac := .noJac
    ctype := "eq"
    chess := none }

/-- Concrete sample: an inequality constraint of output dimension 2
without a Jacobian evaluator. -/
def conIneq : ConSpec :=
  { cfun := fun x => [x.getD 0 0, x.getD 1 0]
    cjac := fun _ => .dense []
    jac := .noJac
    ctype := "ineq"
    chess := none }

/-- Concrete sample: a constraint with an unrecognized type tag. -/
def conBad : ConSpec :=
  { cfun := fun x => [x.getD 0 0]
    cjac := fun _ => .dense []
    jac := .noJac
    ctype := "foo"
    chess := none }

/-- Concrete sample: a Jacobian evaluator returning the dense 2 by 2
identity matrix at every point. -/
def jacId2 : Vec → JacResult := fun _ => .dense [[1, 0], [0, 1]]

/-- Concrete sample: a constraint whose callable Jacobian evaluator
returns the dense 2 by 2 identity matrix. -/
def conDenseId : ConSpec :=
  { cfun := fun x => [x.getD 0 0, x.getD 1 0]
    cjac := fun _ => .dense []
    jac := .callable jacId2
    ctype := "eq"
    chess := none }

/-- Concrete sample: the constraint Hessian evaluator of `conEqHess`
(identically zero, as for an affine constraint). -/
def hessZero2 : Vec → Vec → Mat :=
  fun _ _ => [[0, 0], [0, 0]]

/-- Concrete sample: an equality constraint carrying the Hessian
evaluator `hessZero2`. -/
def conEqHess : ConSpec :=
  { cfun := fun x => [x.getD 0 0 + x.getD 1 0 - 1]
    cjac := fun _ => .dense []
    jac := .noJac
    ctype := "eq"
    chess := some hessZero2 }

/-- Concrete sample: the objective Hessian of `x ↦ x0^2 + x1^2`. -/
def hessObj2 : Vec → Mat :=
  fun _ => [[2, 0], [0, 2]]

/-- Concrete sample: a wrapper state as built for the objective
`x ↦ x0^2 + x1^2` with Hessian `hessObj2` and the single constraint
group `conEqHess`. -/
def wHess : Wrapper :=
  { ofun := fun x => x.getD 0 0 ^ 2 + x.getD 1 0 ^ 2
    ojac := fun x => [2 * x.getD 0 0, 2 * x.getD 1 0]
    obj_hess := some hessObj2
    con_funs := [conEqHess.cfun]
    con_jacs := [fun x => .dense (approx_fprime x conEqHess.cfun eps0)]
    con_hessians := [some hessZero2]
    con_dims := [1]
    sparse_jacs := [false]
    jac_nnz_row := [0, 0]
    jac_nnz_col := [0, 1]
    nfev := 0
    njev := 0
    nit := 0 }

/-! ## Theorems -/

/-- Helper: with every type tag recognized, `get_constraint_bounds`
succeeds and emits per group `conDim` zeros as lower bounds and
`conDim` zeros or `inf` entries as upper bounds. -/
theorem bounds_ok_of_valid (cons : List ConSpec) (x0 : Vec) (inf : ℚ)
    (h : ∀ c ∈ cons, c.ctype = "eq" ∨ c.ctype = "ineq") :
    (get_constraint_bounds cons x0 inf).1 =
      .ok ((cons.map (fun c => List.replicate (conDim c x0) (0 : ℚ))).flatten,
           (cons.map (fun c => List.replicate (conDim c x0)
              (if c.ctype = "eq" then (0 : ℚ) else inf))).flatten) := by
  induction cons with
  | nil => rfl
  | cons con rest ih =>
    have hcon := h con (List.mem_cons_self con rest)
    have hrest : ∀ c ∈ rest, c.ctype = "eq" ∨ c.ctype = "ineq" :=
      fun c hc => h c (List.mem_cons_of_mem con hc)
    have ihr := ih hrest
    rcases hpair : get_constraint_bounds rest x0 inf with ⟨res, cnts⟩
    rw [hpair] at ihr
    simp only at ihr
    rcases hcon with hc | hc
    · simp [get_constraint_bounds, hpair, hc, ihr]
    · have hne : con.ctype ≠ "eq" := by simp [hc]
      simp [get_constraint_bounds, hpair, hc, hne, ihr]

/-- Helper: an unrecognized type tag anywhere in the constraint list
makes `get_constraint_bounds` raise. -/
theorem bounds_error_of_invalid (cons : List ConSpec) (x0 : Vec) (inf : ℚ)
    (h : ∃ c ∈ cons, c.ctype ≠ "eq" ∧ c.ctype ≠ "ineq") :
    ∃ e, (get_constraint_bounds cons x0 inf).1 = .error e := by
  induction cons with
  | nil => simp at h
  | cons con rest ih =>
    rcases h with ⟨c, hc, hbad⟩
    rcases List.mem_cons.1 hc with rfl | hmem
    · exact ⟨c.ctype, by simp [get_constraint_bounds, hbad.1, hbad.2]⟩
    · by_cases h1 : con.ctype = "eq"
      · rcases ih ⟨c, hmem, hbad⟩ with ⟨e, he⟩
        rcases hpair : get_constraint_bounds rest x0 inf with ⟨res, cnts⟩
        rw [hpair] at he; simp only at he; subst he
        exact ⟨e, by simp [get_constraint_bounds, hpair, h1]⟩
      · by_cases h2 : con.ctype = "ineq"
        · rcases ih ⟨c, hmem, hbad⟩ with ⟨e, he⟩
          rcases hpair : get_constraint_bounds rest x0 inf with ⟨res, cnts⟩
          rw [hpair] at he; simp only at he; subst he
          exact ⟨e, by simp [get_constraint_bounds, hpair, h1, h2]⟩
        · exact ⟨con.ctype, by simp [get_constraint_bounds, h1, h2]⟩

/-- C6: for every constraint list, `get_constraint_bounds` emits, per
group of discovered dimension `p_i`, `p_i` lower bounds `0` and `p_i`
upper bounds `0` for type tag `"eq"` or the sentinel `1e19` for
`"ineq"`, and raises when some type tag is neither recognized value. -/
theorem c6_constraint_bounds (cons : List ConSpec) (x0 : Vec) :
    ((∀ c ∈ cons, c.ctype = "eq" ∨ c.ctype = "ineq") →
      (get_constraint_bounds cons x0 bigBound).1 =
        .ok ((cons.map (fun c => List.replicate (conDim c x0) (0 : ℚ))).flatten,
             (cons.map (fun c => List.replicate (conDim c x0)
                (if c.ctype = "eq" then (0 : ℚ) else bigBound))).flatten)) ∧
    ((∃ c ∈ cons, c.ctype ≠ "eq" ∧ c.ctype ≠ "ineq") →
      ∃ e, (get_constraint_bounds cons x0 bigBound).1 = .error e) :=
  ⟨fun h => bounds_ok_of_valid cons x0 bigBound h,
   fun h => bounds_error_of_invalid cons x0 bigBound h⟩

/-- Witness for C6 at a concrete constraint list: one equality group of
dimension 1 and one inequality group of dimension 2 give bounds
`cl = [0,0,0]`, `cu = [0, 1e19, 1e19]`; adding a group with tag
`"foo"` makes the translator raise. -/
theorem c6_constraint_bounds_witness :
    (get_constraint_bounds [conEq, conIneq] [1, 2] bigBound).1 =
      .ok ([0, 0, 0], [0, bigBound, bigBound]) ∧
    (∃ e, (get_constraint_bounds [conEq, conBad] [1, 2] bigBound).1 = .error e) := by
  refine ⟨?_, ?_⟩
  · have h := (c6_constraint_bounds [conEq, conIneq] [1, 2]).1 (by decide)
    simpa [conEq, conIneq, conDim] using h
  · exact (c6_constraint_bounds [conEq, conBad] [1, 2]).2
      ⟨conBad, by simp, by simp [conBad], by simp [conBad]⟩

/-- C4: constructing the wrapper with `hessp = None` raises
`NotImplementedError` exactly when the objective supplies a Hessian
while some constraint group does not, or some group supplies one while
the objective does not. -/
theorem c4_hessian_mismatch (ofun : Vec → ℚ) (ojac : ObjJacDecl)
    (hess : Option (Vec → Mat)) (cons : List ConSpec) (eps : ℚ)
    (con_dims : List Nat) (sj : List Bool) (r c : List Nat) :
    (∃ e, mkWrapper ofun ojac hess none cons eps con_dims sj r c = .error e) ↔
      ((hess.isSome = true ∧ ∃ con ∈ cons, con.chess = none) ∨
       (hess = none ∧ ∃ con ∈ cons, con.chess.isSome = true)) := by
  constructor
  · rintro ⟨e, he⟩
    simp only [mkWrapper, Option.isSome_none, Bool.false_eq_true, if_false] at he
    by_cases hany : cons.any (fun con =>
        (hess.isSome && con.chess.isNone) || (hess.isNone && con.chess.isSome)) = true
    · rcases List.any_eq_true.1 hany with ⟨con, hmem, hpred⟩
      rcases Bool.or_eq_true_iff.1 hpred with hp | hp
      · rcases Bool.and_eq_true_iff.1 hp with ⟨h1, h2⟩
        exact .inl ⟨h1, con, hmem, Option.isNone_iff_eq_none.1 h2⟩
      · rcases Bool.and_eq_true_iff.1 hp with ⟨h1, h2⟩
        exact .inr ⟨Option.isNone_iff_eq_none.1 h1, con, hmem, h2⟩
    · rw [if_neg hany] at he
      exact absurd he (by simp)
  · intro h
    have hany : cons.any (fun con =>
        (hess.isSome && con.chess.isNone) || (hess.isNone && con.chess.isSome)) = true := by
      rcases h with ⟨h1, con, hmem, h2⟩ | ⟨h1, con, hmem, h2⟩
      · exact List.any_eq_true.2 ⟨con, hmem, by simp [h1, h2]⟩
      · exact List.any_eq_true.2 ⟨con, hmem, by simp [h1, h2]⟩
    refine ⟨"NotImplementedError: hessian has to be provided for the objective and all constraints", ?_⟩
    simp only [mkWrapper, Option.isSome_none, Bool.false_eq_true, if_false, hany, if_true]

/-- C10: when the initial point is a scalar, the result field `x` is
the scalar first component of the solver solution vector; for an
initial point of nonzero dimension the solution vector is returned
unchanged. -/
theorem c10_scalar_x0 :
    (∀ (v q : ℚ) (rest : Vec),
      minimize_solution_x (.scalar v) (q :: rest) = .ok (.scalar q)) ∧
    (∀ (v0 sol : Vec), minimize_solution_x (.arr v0) sol = .ok (.arr sol)) :=
  ⟨fun _ _ _ => rfl, fun _ _ => rfl⟩

/-- C5 counterexample: the adapter built for the empty constraint list
does not return an empty vector from `constraints(x)` - the
`np.hstack` of the empty list of group values raises, modelled as
`none`. -/
theorem c5_counterexample :
    (mkWrapper (fun _ => (0 : ℚ)) .noJac none none [] eps0 [] [] [] []).map
      (fun w => w.constraints [0]) = .ok none := rfl

/-- C5 amended: for a problem with zero constraints the bound arrays
both have length 0, but `constraints(x)` raises (the empty
concatenation is rejected by numpy) instead of returning an empty
vector. -/
theorem c5_empty_constraints (w : Wrapper) (x x0 : Vec) (inf : ℚ)
    (h : w.con_funs = []) :
    w.constraints x = none ∧
    ∃ cl cu, (get_constraint_bounds [] x0 inf).1 = .ok (cl, cu) ∧
      cl.length = 0 ∧ cu.length = 0 := by
  refine ⟨?_, [], [], rfl, rfl, rfl⟩
  simp [Wrapper.constraints, h, np_hstack]

/-- Witness for C5 amended at a concrete empty-constraint adapter. -/
theorem c5_empty_constraints_witness :
    ({ wHess with con_funs := [] } : Wrapper).constraints [3] = none ∧
    ∃ cl cu, (get_constraint_bounds [] [3] bigBound).1 = .ok (cl, cu) ∧
      cl.length = 0 ∧ cu.length = 0 :=
  c5_empty_constraints { wHess with con_funs := [] } [3] [3] bigBound rfl

/-- Helper: with every type tag recognized, `get_constraint_bounds`
invokes each groups `fun` exactly once. -/
theorem bounds_counts_of_valid (cons : List ConSpec) (x0 : Vec) (inf : ℚ)
    (h : ∀ c ∈ cons, c.ctype = "eq" ∨ c.ctype = "ineq") :
    (get_constraint_bounds cons x0 inf).2 = cons.map (fun _ => 1) := by
  induction cons with
  | nil => rfl
  | cons con rest ih =>
    have hcon := h con (List.mem_cons_self con rest)
    have ihr := ih (fun c hc => h c (List.mem_cons_of_mem con hc))
    rcases hpair : get_constraint_bounds rest x0 inf with ⟨res, cnts⟩
    rw [hpair] at ihr
    simp only at ihr
    rcases hcon with hc | hc
    · cases res with
      | ok b => simp [get_constraint_bounds, hpair, hc, ihr]
      | error e => simp [get_constraint_bounds, hpair, hc, ihr]
    · have hne : con.ctype ≠ "eq" := by simp [hc]
      cases res with
      | ok b => simp [get_constraint_bounds, hpair, hc, hne, ihr]
      | error e => simp [get_constraint_bounds, hpair, hc, hne, ihr]

/-- Helper: `_get_sparse_jacobian_structure` invokes a groups `fun`
once when the group lacks a Jacobian callable (absent `jac` or
`jac=True`) and not at all when `jac` is a callable. -/
theorem structure_counts (cons : List ConSpec) (x0 : Vec) :
    (get_sparse_jacobian_structure cons x0).2 =
      cons.map (fun c => match c.jac with | .callable _ => 0 | _ => 1) := by
  cases cons with
  | nil => rfl
  | cons con rest =>
    simp only [get_sparse_jacobian_structure, List.map_map]
    refine List.map_congr_left (fun c _ => ?_)
    rcases hj : c.jac with _ | _ | j
    · simp [jacBlock, hj]
    · rcases hjr : c.cjac x0 with m | co <;> simp [jacBlock, hj, hjr]
    · rcases hjr : j x0 with m | co <;> simp [jacBlock, hj, hjr]

/-- Helper: zipWith of two maps over the same list. -/
theorem zipWith_map_same {α β γ δ : Type} (op : β → γ → δ) (f : α → β)
    (g : α → γ) (l : List α) :
    List.zipWith op (l.map f) (l.map g) = l.map (fun a => op (f a) (g a)) := by
  induction l with
  | nil => rfl
  | cons a l ih => simp [ih]

/-- C8 counterexample: for a single equality constraint group without a
Jacobian callable, the one-time setup of `minimize_ipopt` invokes the
groups evaluator three times at the initial point (once each in
`get_constraint_bounds`, `get_constraint_dimensions` and
`_get_sparse_jacobian_structure`), not exactly once. -/
theorem c8_counterexample :
    setup_fun_calls [conEq] [0] = [3] ∧ (3 : Nat) ≠ 1 := by
  exact ⟨rfl, by decide⟩

/-- C8 amended: during the one-time setup (bound computation, dimension
probing, sparsity discovery), each constraint groups evaluator is
invoked exactly three times at the initial point when the group has no
callable Jacobian evaluator, and exactly twice when it has one; the
dimension-probing evaluation is not reused. -/
theorem c8_setup_call_counts (cons : List ConSpec) (x0 : Vec)
    (h : ∀ c ∈ cons, c.ctype = "eq" ∨ c.ctype = "ineq") :
    setup_fun_calls cons x0 =
      cons.map (fun c => match c.jac with | .callable _ => 2 | _ => 3) := by
  unfold setup_fun_calls
  rw [bounds_counts_of_valid cons x0 bigBound h, structure_counts cons x0,
    get_constraint_dimensions]
  simp only [zipWith_map_same]
  refine List.map_congr_left (fun c _ => ?_)
  rcases hj : c.jac with _ | _ | j <;> simp [hj]

/-- Witness for C8 amended: a group without a Jacobian callable is
evaluated three times, a group with one twice. -/
theorem c8_setup_call_counts_witness :
    setup_fun_calls [conIneq, conDenseId] [1, 2] = [3, 2] := by
  have h := c8_setup_call_counts [conIneq, conDenseId] [1, 2] (by decide)
  simpa [conIneq, conDenseId] using h

/-- Helper: both branches of the dimension measurement evaluate the
value half of the group at the probe point. -/
theorem conDim_eq (c : ConSpec) (x0 : Vec) :
    conDim c x0 = (c.cfun x0).length := by
  rcases h : c.jac <;> simp [conDim, h]

/-- Helper: `np.hstack` on a nonempty list concatenates. -/
theorem np_hstack_ne_nil (ls : List Vec) (h : ls ≠ []) :
    np_hstack ls = some ls.flatten := by
  cases ls with
  | nil => exact absurd rfl h
  | cons a t => rfl

/-- Helper: dropping the total length of the first `i` blocks from a
flattened list of blocks and taking the length of block `i` recovers
block `i`. -/
theorem flatten_slice {α : Type} (L : List (List α)) (i : Nat)
    (hi : i < L.length) :
    (L.flatten.drop (((L.map List.length).take i).sum)).take L[i].length
      = L[i] := by
  rw [List.drop_sum_flatten, List.drop_eq_getElem_cons hi, List.flatten_cons]
  exact List.take_left _ _

/-- C1: the adapter evaluates the constraint groups in declaration
order; the stacked vector has length equal to the sum of the
discovered dimensions, and slicing it at the cumulative offsets
reproduces each groups individual evaluation (for a nonempty
constraint list, with each groups output dimension at `x` matching the
one discovered at `x0`). -/
theorem c1_stacked_constraints (cons : List ConSpec) (x0 x : Vec)
    (w : Wrapper) (hw : w.con_funs = cons.map (fun c => c.cfun))
    (hne : cons ≠ [])
    (hstable : ∀ c ∈ cons, (c.cfun x).length = (c.cfun x0).length) :
    w.constraints x = some ((cons.map (fun c => c.cfun x)).flatten) ∧
    ((cons.map (fun c => c.cfun x)).flatten).length =
      ((get_constraint_dimensions cons x0).1).sum ∧
    ∀ i (hi : i < cons.length),
      (((cons.map (fun c => c.cfun x)).flatten).drop
          ((((get_constraint_dimensions cons x0).1).take i).sum)).take
          (((get_constraint_dimensions cons x0).1).getD i 0) =
        (cons.get ⟨i, hi⟩).cfun x := by
  have hdims : (get_constraint_dimensions cons x0).1 =
      (cons.map (fun c => c.cfun x)).map List.length := by
    simp only [get_constraint_dimensions, List.map_map]
    exact List.map_congr_left (fun c hc => by
      rw [conDim_eq]; exact (hstable c hc).symm)
  refine ⟨?_, ?_, ?_⟩
  · rw [Wrapper.constraints, hw, List.map_map]
    exact np_hstack_ne_nil _ (by simpa using hne)
  · rw [hdims, List.length_flatten]
  · intro i hi
    have hi2 : i < (cons.map (fun c => c.cfun x)).length := by simpa using hi
    have hLi : (cons.map (fun c => c.cfun x))[i] = (cons.get ⟨i, hi⟩).cfun x := by
      simp
    have hfs := flatten_slice (cons.map (fun c => c.cfun x)) i hi2
    rw [hLi] at hfs
    have hgd : ((cons.map (fun c => c.cfun x)).map List.length).getD i 0 =
        ((cons.get ⟨i, hi⟩).cfun x).length := by
      rw [List.getD_eq_getElem?_getD, List.getElem?_map,
        List.getElem?_eq_getElem hi2, hLi]
      rfl
    rw [hdims, hgd]
    exact hfs

/-- Witness for C1: two groups of dimensions 1 and 2 probed at
`x0 = [1,2]` and stacked at `x = [3,4]` give the vector `[3,3,4]`,
and the slice at offset 1 of length 2 is the second groups value. -/
theorem c1_stacked_constraints_witness :
    ({ wHess with con_funs := [conEq.cfun, conIneq.cfun] } : Wrapper).constraints
        [3, 4] = some [3, 3, 4] ∧
    ([3, 3, 4] : Vec).length =
      ((get_constraint_dimensions [conEq, conIneq] [1, 2]).1).sum ∧
    ((([3, 3, 4] : Vec).drop
        ((((get_constraint_dimensions [conEq, conIneq] [1, 2]).1).take 1).sum)).take
        (((get_constraint_dimensions [conEq, conIneq] [1, 2]).1).getD 1 0)) =
      conIneq.cfun [3, 4] := by
  have h := c1_stacked_constraints [conEq, conIneq] [1, 2] [3, 4]
    { wHess with con_funs := [conEq.cfun, conIneq.cfun] } rfl
    (List.cons_ne_nil _ _) (by decide)
  refine ⟨?_, ?_, ?_⟩
  · have h1 := h.1
    simpa [conEq, conIneq] using h1
  · have h2 := h.2.1
    simpa [conEq, conIneq] using h2
  · have h3 := h.2.2 1 (by decide)
    simpa [conEq, conIneq] using h3

/-- Helper: enumerating a replicated list pairs consecutive indices
with the repeated element. -/
theorem enumFrom_replicate {α : Type} (n : Nat) (k : Nat) (a : α) :
    List.enumFrom k (List.replicate n a) =
      (List.range n).map (fun i => (k + i, a)) := by
  induction n generalizing k with
  | zero => rfl
  | succ m ih =>
    rw [List.replicate_succ, List.enumFrom_cons, ih (k + 1),
      List.range_succ_eq_map, List.map_cons, List.map_map]
    refine congrArg₂ _ (by simp) ?_
    refine List.map_congr_left (fun i _ => ?_)
    simp [Function.comp, Nat.add_assoc, Nat.add_comm 1 i]

/-- Helper: a filterMap that always produces a value is a map. -/
theorem filterMap_some_comp {α β : Type} (f : α → β) (l : List α) :
    l.filterMap (fun a => some (f a)) = l.map f := by
  induction l with
  | nil => rfl
  | cons a t ih => simp [ih]

/-- Helper: the row and column coordinate arrays of the COO form of a
`p` by `n` all-ones dense matrix enumerate the full cartesian product
of coordinates in row-major order. -/
theorem cooOfDense_onesMat (p n : Nat) :
    (cooOfDense (onesMat p n)).row =
        (List.range p).flatMap (fun i => List.replicate n i) ∧
    (cooOfDense (onesMat p n)).col =
        (List.range p).flatMap (fun _ => List.range n) := by
  have hinner : ∀ i : Nat,
      (List.replicate n (1 : ℚ)).enum.filterMap (fun jv =>
        if jv.2 ≠ 0 then some (i, jv.1, jv.2) else none) =
      (List.range n).map (fun j => (i, j, (1 : ℚ))) := by
    intro i
    have he2 : (List.replicate n (1 : ℚ)).enum =
        (List.range n).map (fun j => (j, (1 : ℚ))) := by
      simpa using enumFrom_replicate n 0 (1 : ℚ)
    rw [he2, List.filterMap_map]
    have hf : ((fun jv : Nat × ℚ =>
        if jv.2 ≠ 0 then some (i, jv.1, jv.2) else none) ∘
          (fun j : Nat => (j, (1 : ℚ)))) =
        fun j : Nat => some (i, j, (1 : ℚ)) := by
      funext j
      simp [Function.comp]
    rw [hf, filterMap_some_comp]
  have hentries : (onesMat p n).enum.flatMap (fun ir =>
      ir.2.enum.filterMap (fun jv =>
        if jv.2 ≠ 0 then some (ir.1, jv.1, jv.2) else none)) =
      (List.range p).flatMap (fun i =>
        (List.range n).map (fun j => (i, j, (1 : ℚ)))) := by
    have he : (onesMat p n).enum =
        (List.range p).map (fun i => (i, List.replicate n (1 : ℚ))) := by
      simpa [onesMat] using enumFrom_replicate p 0 (List.replicate n (1 : ℚ))
    rw [he, List.flatMap_def, List.map_map, ← List.flatMap_def]
    congr 1
    funext i
    simpa [Function.comp] using hinner i
  constructor
  · show ((onesMat p n).enum.flatMap _).map _ = _
    rw [hentries, List.map_flatMap]
    congr 1
    funext i
    simp [Function.comp_def, List.map_const']
  · show ((onesMat p n).enum.flatMap _).map _ = _
    rw [hentries, List.map_flatMap]
    congr 1
    funext i
    simp [Function.comp_def]

/-- Helper: `np.ones_like` of a rectangular `p` by `n` matrix is the
`p` by `n` all-ones matrix. -/
theorem ones_like_rect (M : Mat) (n : Nat) (h : ∀ r ∈ M, r.length = n) :
    ones_like M = onesMat M.length n := by
  rw [ones_like, onesMat]
  refine List.eq_replicate_iff.2 ⟨by simp, ?_⟩
  intro b hb
  rcases List.mem_map.1 hb with ⟨r, hr, rfl⟩
  rw [List.map_const', h r hr]

/-- Helper: stacking a single COO block leaves its coordinates
unchanged (the row offset is zero). -/
theorem vstackCoo_singleton (c : Coo) :
    (vstackCoo [c]).row = c.row ∧ (vstackCoo [c]).col = c.col := by
  constructor <;> simp [vstackCoo]

/-- Helper: in the flattening of a rectangular matrix whose rows all
have length `n`, the element at flat index `i * n + j` is the `(i, j)`
entry. -/
theorem flatten_getD_rect {α : Type} (L : List (List α)) (n : Nat) (d : α)
    (hrect : ∀ r ∈ L, r.length = n) (i j : Nat) (hi : i < L.length)
    (hj : j < n) :
    L.flatten.getD (i * n + j) d = (L.getD i []).getD j d := by
  induction L generalizing i with
  | nil => exact absurd hi (by simp)
  | cons r t ih =>
    have hr : r.length = n := hrect r (List.mem_cons_self r t)
    cases i with
    | zero =>
      rw [List.flatten_cons]
      simpa using List.getD_append r t.flatten d j (by rw [hr]; exact hj)
    | succ i2 =>
      rw [List.flatten_cons]
      have harith : (i2 + 1) * n + j = r.length + (i2 * n + j) := by
        rw [hr]; ring
      rw [harith, List.getD_append_right r t.flatten d _ (Nat.le_add_right _ _),
        Nat.add_sub_cancel_left]
      have := ih (fun r2 hr2 => hrect r2 (List.mem_cons_of_mem r hr2)) i2
        (Nat.lt_of_succ_lt_succ (by simpa using hi))
      rw [this]
      rfl

/-- Helper: indexing a map over `List.range`. -/
theorem getD_map_range {α : Type} (p : Nat) (f : Nat → α) (i : Nat)
    (d : α) (hi : i < p) :
    ((List.range p).map f).getD i d = f i := by
  rw [List.getD_eq_getElem?_getD, List.getElem?_map, List.getElem?_range hi]
  rfl

/-- C2: for a single constraint group whose callable Jacobian evaluator
returns a dense `p` by `n` array at the probe point, structure
discovery classifies the group dense and emits the full row-major
enumeration of all `p * n` coordinates, regardless of the array
entries; the per-call Jacobian values are the row-major flattening of
the evaluated matrix, and the value at flat position `i * n + j` is the
`(i, j)` entry of the evaluated matrix while the structure at that
position is exactly the coordinate pair `(i, j)`. -/
theorem c2_dense_jacobian_structure (con : ConSpec) (j : Vec → JacResult)
    (x0 : Vec) (p n : Nat) (M : Mat)
    (hjac : con.jac = .callable j) (hj0 : j x0 = .dense M)
    (hp : M.length = p) (hrect : ∀ r ∈ M, r.length = n) :
    (get_sparse_jacobian_structure [con] x0).1 =
      ([false],
       (List.range p).flatMap (fun i => List.replicate n i),
       (List.range p).flatMap (fun _ => List.range n)) ∧
    (∀ (w : Wrapper) (x : Vec) (M2 : Mat),
      w.con_jacs = [j] → w.sparse_jacs = [false] → j x = .dense M2 →
      w.jacobian x = some M2.flatten) ∧
    (∀ (M2 : Mat), M2.length = p → (∀ r ∈ M2, r.length = n) →
      ∀ i2 j2, i2 < p → j2 < n →
        M2.flatten.getD (i2 * n + j2) 0 = (M2.getD i2 []).getD j2 0 ∧
        ((List.range p).flatMap (fun i3 => List.replicate n i3)).getD
          (i2 * n + j2) 0 = i2 ∧
        ((List.range p).flatMap (fun _ => List.range n)).getD
          (i2 * n + j2) 0 = j2) := by
  refine ⟨?_, ?_, ?_⟩
  · have hblock : jacBlock con x0 =
        ((false, cooOfDense (onesMat p n)), 0) := by
      simp only [jacBlock, hjac, hj0]
      rw [ones_like_rect M n hrect, hp]
    have hmap : [con].map (fun c => jacBlock c x0) =
        [((false, cooOfDense (onesMat p n)), 0)] := by
      rw [List.map_cons, List.map_nil, hblock]
    show ((([con].map (fun c => jacBlock c x0)).map (fun b => b.1.1),
      (vstackCoo (([con].map (fun c => jacBlock c x0)).map (fun b => b.1.2))).row,
      (vstackCoo (([con].map (fun c => jacBlock c x0)).map (fun b => b.1.2))).col)) = _
    rw [hmap]
    simp only [List.map_cons, List.map_nil]
    rw [(vstackCoo_singleton _).1, (vstackCoo_singleton _).2,
      (cooOfDense_onesMat p n).1, (cooOfDense_onesMat p n).2]
  · intro w x M2 hcj hsp hx
    rw [Wrapper.jacobian, hcj, hsp]
    simp only [List.zip_cons_cons, List.zip_nil_right, List.mapM_cons,
      List.mapM_nil, hx]
    simp [np_hstack]
  · intro M2 hM2 hrect2 i2 j2 hi2 hj2
    refine ⟨?_, ?_, ?_⟩
    · exact flatten_getD_rect M2 n 0 hrect2 i2 j2 (by rw [hM2]; exact hi2) hj2
    · rw [List.flatMap_def]
      have hr : ∀ r ∈ (List.range p).map (fun i3 => List.replicate n i3),
          r.length = n := by
        intro r hr
        rcases List.mem_map.1 hr with ⟨a, _, rfl⟩
        simp
      rw [flatten_getD_rect _ n 0 hr i2 j2 (by simpa using hi2) hj2,
        getD_map_range p _ i2 [] hi2]
      simp [List.getD_eq_getElem?_getD, List.getElem?_replicate, hj2]
    · rw [List.flatMap_def]
      have hr : ∀ r ∈ (List.range p).map (fun _ : Nat => List.range n),
          r.length = n := by
        intro r hr
        rcases List.mem_map.1 hr with ⟨a, _, rfl⟩
        simp
      rw [flatten_getD_rect _ n 0 hr i2 j2 (by simpa using hi2) hj2,
        getD_map_range p _ i2 [] hi2]
      simp [List.getD_eq_getElem?_getD, List.getElem?_range hj2]

/-- Witness for C2 at the 2 by 2 identity Jacobian: structure
`rows=[0,0,1,1]`, `cols=[0,1,0,1]`, values `[1,0,0,1]`, and the value
at flat position `1*2+0` is entry `(1,0)` of the matrix. -/
theorem c2_dense_jacobian_structure_witness :
    (get_sparse_jacobian_structure [conDenseId] [0, 0]).1 =
      ([false], [0, 0, 1, 1], [0, 1, 0, 1]) ∧
    ({ wHess with con_jacs := [jacId2], sparse_jacs := [false] } : Wrapper).jacobian
      [5, 7] = some [1, 0, 0, 1] ∧
    (([1, 0, 0, 1] : Vec).getD (1 * 2 + 0) 0 =
      (([[1, 0], [0, 1]] : Mat).getD 1 []).getD 0 0) := by
  have h := c2_dense_jacobian_structure conDenseId jacId2 [0, 0] 2 2
    [[1, 0], [0, 1]] rfl rfl rfl (by decide)
  refine ⟨?_, ?_, ?_⟩
  · have h1 := h.1
    rw [h1]
    rfl
  · have h2 := h.2.1 { wHess with con_jacs := [jacId2], sparse_jacs := [false] }
      [5, 7] [[1, 0], [0, 1]] rfl rfl rfl
    rw [h2]
    rfl
  · have h3 := (h.2.2 [[1, 0], [0, 1]] rfl (by decide) 1 0 (by decide) (by decide)).1
    exact h3

/-- Helper: cumulative sums of a cons. -/
theorem np_cumsum_cons (d : Nat) (t : List Nat) :
    np_cumsum (d :: t) = d :: (np_cumsum t).map (fun s => d + s) := by
  rw [np_cumsum, np_cumsum, List.map_map]
  show (List.range (t.length + 1)).map _ = _
  rw [List.range_succ_eq_map, List.map_cons, List.map_map]
  refine congrArg₂ _ (by simp) ?_
  refine List.map_congr_left (fun i _ => ?_)
  simp [Function.comp, List.take_succ_cons]

/-- Helper: splitting at indices all shifted by `d`, with a leading
`d`, first cuts off the first `d` elements and then splits the rest at
the unshifted indices. -/
theorem np_split_cons_shift (l : Vec) (d : Nat) (is : List Nat)
    (hd : d ≤ l.length) :
    np_split l (d :: is.map (fun s => d + s)) =
      l.take d :: np_split (l.drop d) is := by
  have hbd : ∀ k ≤ is.length,
      ((is.map (fun s => d + s)) ++ [l.length]).getD k 0 =
        d + ((is ++ [(l.drop d).length]).getD k 0 : Nat) := by
    intro k hk
    rcases Nat.lt_or_ge k is.length with hklt | hkge
    · rw [List.getD_eq_getElem?_getD,
        List.getElem?_append_left (by simpa using hklt),
        List.getElem?_map, List.getElem?_eq_getElem hklt,
        List.getD_eq_getElem?_getD, List.getElem?_append_left hklt,
        List.getElem?_eq_getElem hklt]
      rfl
    · have hk2 : k = is.length := le_antisymm hk hkge
      subst hk2
      rw [List.getD_eq_getElem?_getD, List.getElem?_append_right (by simp),
        List.getD_eq_getElem?_getD, List.getElem?_append_right (le_refl _)]
      simp [Nat.add_sub_cancel' hd]
  have hbd2 : ∀ i ≤ is.length + 1,
      (((0 : Nat) :: (d :: is.map (fun s => d + s)) ++ [l.length]).getD (i + 1) 0) =
        d + (((0 : Nat) :: is ++ [(l.drop d).length]).getD i 0 : Nat) := by
    intro i hi
    cases i with
    | zero => simp
    | succ k =>
      have hk : k ≤ is.length := by omega
      calc ((0 : Nat) :: (d :: is.map (fun s => d + s)) ++ [l.length]).getD (k + 1 + 1) 0
          = ((is.map (fun s => d + s)) ++ [l.length]).getD k 0 := by
            rw [List.cons_append, List.getD_cons_succ, List.cons_append,
              List.getD_cons_succ]
        _ = d + ((is ++ [(l.drop d).length]).getD k 0 : Nat) := hbd k hk
        _ = d + (((0 : Nat) :: is ++ [(l.drop d).length]).getD (k + 1) 0 : Nat) := by
            rw [List.cons_append, List.getD_cons_succ]
  simp only [np_split, List.length_cons, List.length_map]
  rw [List.range_succ_eq_map, List.map_cons, List.map_map]
  refine congrArg₂ _ rfl ?_
  refine List.map_congr_left (fun i hi => ?_)
  have hilt : i < is.length + 1 := List.mem_range.1 hi
  have hA := hbd2 i (by omega)
  have hB := hbd2 (i + 1) (by omega)
  simp only [Function.comp_apply]
  rw [hA, hB, Nat.add_sub_add_left, List.drop_drop, Nat.add_comm d]

/-- Helper: `np.split` at the cumulative sums of all but the last
dimension cuts the multiplier vector into exactly the per-group slices,
when the vector has the total length. -/
theorem np_split_eq_sliceByDims (l : Vec) (ds : List Nat) (hne : ds ≠ [])
    (hlen : l.length = ds.sum) :
    np_split l (np_cumsum ds.dropLast) = sliceByDims l ds := by
  induction ds generalizing l with
  | nil => exact absurd rfl hne
  | cons d t ih =>
    cases t with
    | nil =>
      have hd : l.length = d := by simpa using hlen
      have h3 : np_split l (np_cumsum ([d].dropLast)) = [l.take l.length] := rfl
      rw [h3, List.take_length]
      show [l] = [l.take d]
      rw [← hd, List.take_length]
    | cons d2 t2 =>
      rw [List.dropLast_cons_of_ne_nil (List.cons_ne_nil d2 t2), np_cumsum_cons,
        np_split_cons_shift l d (np_cumsum (d2 :: t2).dropLast)
          (by rw [hlen]; simp [List.sum_cons])]
      rw [sliceByDims]
      refine congrArg₂ _ rfl ?_
      refine ih (l.drop d) (List.cons_ne_nil d2 t2) ?_
      rw [List.length_drop, hlen]
      simp [List.sum_cons]

/-- Helper: the slice of group `i` starts at the sum of the dimensions
before `i` and has length `dims i`. -/
theorem sliceByDims_getD (l : Vec) (ds : List Nat) (i : Nat)
    (hi : i < ds.length) :
    (sliceByDims l ds).getD i [] =
      (l.drop ((ds.take i).sum)).take (ds.getD i 0) := by
  induction ds generalizing l i with
  | nil => exact absurd hi (by simp)
  | cons d t ih =>
    cases i with
    | zero => simp [sliceByDims]
    | succ k =>
      rw [sliceByDims, List.getD_cons_succ,
        ih (l.drop d) k (Nat.lt_of_succ_lt_succ (by simpa using hi)),
        List.take_succ_cons, List.sum_cons, List.getD_cons_succ,
        List.drop_drop, Nat.add_comm]

/-- Helper: a foldlM over constraint Hessians that are all present
reduces to the pure fold of the Hessian contributions. -/
theorem foldlM_hessians (x : Vec) (hs : List (Vec → Vec → Mat))
    (ls : List Vec) (init : Mat) :
    ((hs.map some).zip ls).foldlM
        (fun H hl => hl.1.bind (fun h => some (matAdd H (h x hl.2))))
        init =
      some ((hs.zip ls).foldl (fun H hl => matAdd H (hl.1 x hl.2)) init) := by
  induction hs generalizing ls init with
  | nil => rfl
  | cons h t ih =>
    cases ls with
    | nil => rfl
    | cons l ls2 => exact ih ls2 (matAdd init (h x l))

/-- C3: with the objective and all groups supplying Hessians, the
adapter Hessian callback scales the objective Hessian by the factor,
adds each groups Hessian at the slice of the multiplier vector for
that groups offset range, and returns the row-major lower-triangular
entries for `n = x.size`; the slice of group `i` is the multiplier
segment at offset `sum of dims before i` of length `dims i`. -/
theorem c3_hessian (w : Wrapper) (oh : Vec → Mat)
    (hs : List (Vec → Vec → Mat)) (dims : List Nat) (x lagrange : Vec)
    (obj_factor : ℚ)
    (hoh : w.obj_hess = some oh)
    (hch : w.con_hessians = hs.map some)
    (hcd : w.con_dims = dims)
    (hlen : hs.length = dims.length)
    (hl : lagrange.length = dims.sum) :
    w.hessian x lagrange obj_factor =
      some (trilValues
        ((hs.zip (sliceByDims lagrange dims)).foldl
          (fun H hl2 => matAdd H (hl2.1 x hl2.2))
          (matSmul obj_factor (oh x))) x.length) ∧
    ∀ i, i < dims.length →
      (sliceByDims lagrange dims).getD i [] =
        (lagrange.drop ((dims.take i).sum)).take (dims.getD i 0) := by
  refine ⟨?_, fun i hi => sliceByDims_getD lagrange dims i hi⟩
  rw [Wrapper.hessian, hoh, hch, hcd]
  cases dims with
  | nil =>
    have hhs : hs = [] := List.length_eq_zero.1 (by simpa using hlen)
    subst hhs
    simp
  | cons d t =>
    simp only [Option.pure_def, Option.bind_eq_bind, Option.some_bind]
    rw [np_split_eq_sliceByDims lagrange (d :: t) (List.cons_ne_nil d t) hl]
    rw [foldlM_hessians x hs (sliceByDims lagrange (d :: t))
      (matSmul obj_factor (oh x))]
    rfl

/-- Witness for C3: the sample adapter with objective Hessian
`[[2,0],[0,2]]` and one affine constraint group (zero Hessian),
`x = [1,2]`, multiplier `[5]`, factor `3`, yields the lower-triangular
values `[6, 0, 6]`; the single slice is `[5]`. -/
theorem c3_hessian_witness :
    wHess.hessian [1, 2] [5] 3 = some [6, 0, 6] ∧
    (sliceByDims [5] [1]).getD 0 [] = [5] := by
  have h := c3_hessian wHess hessObj2 [hessZero2] [1] [1, 2] [5] 3
    rfl rfl rfl rfl rfl
  refine ⟨?_, ?_⟩
  · rw [h.1]
    norm_num [trilValues, matSmul, matAdd, hessObj2, hessZero2, sliceByDims,
      List.range_succ]
  · have h2 := h.2 0 (by decide)
    rw [h2]
    decide

/-- Helper: an absent key looks up to nothing. -/
theorem optGet_none_of_not_contains (o : Options) (k : String)
    (h : optContains o k = false) : optGet o k = none := by
  induction o with
  | nil => rfl
  | cons kv t ih =>
    rw [optContains, Bool.or_eq_false_iff] at h
    rw [optGet, if_neg (by simpa using h.1)]
    exact ih h.2

/-- Helper: lookup after a dict assignment. -/
theorem optGet_optSet (o : Options) (k k2 : String) (v : OptVal) :
    optGet (optSet o k v) k2 =
      if k2 = k then some v else optGet o k2 := by
  induction o with
  | nil =>
    by_cases h : k2 = k <;> by_cases h2 : k = k2 <;>
      simp_all [optSet, optGet]
  | cons kv t ih =>
    by_cases h1 : kv.1 = k <;> by_cases h2 : kv.1 = k2 <;>
      by_cases h3 : k2 = k <;> simp_all [optSet, optGet]

/-- Helper: membership after a dict assignment. -/
theorem optContains_optSet (o : Options) (k k2 : String) (v : OptVal) :
    optContains (optSet o k v) k2 =
      if k2 = k then true else optContains o k2 := by
  induction o with
  | nil =>
    by_cases h : k2 = k <;> by_cases h2 : k = k2 <;>
      simp_all [optSet, optContains]
  | cons kv t ih =>
    by_cases h1 : kv.1 = k <;> by_cases h2 : kv.1 = k2 <;>
      by_cases h3 : k2 = k <;> simp_all [optSet, optContains]

/-- Helper: popping one key does not change the lookup of another. -/
theorem optGet_optPop_ne (o : Options) (k k2 : String) (h : k2 ≠ k) :
    optGet (optPop o k) k2 = optGet o k2 := by
  induction o with
  | nil => rfl
  | cons kv t ih =>
    by_cases h1 : kv.1 = k <;> by_cases h2 : kv.1 = k2 <;>
      simp_all [optPop, optGet]

/-- Helper: popping one key does not change membership of another. -/
theorem optContains_optPop_ne (o : Options) (k k2 : String) (h : k2 ≠ k) :
    optContains (optPop o k) k2 = optContains o k2 := by
  induction o with
  | nil => rfl
  | cons kv t ih =>
    by_cases h1 : kv.1 = k <;> by_cases h2 : kv.1 = k2 <;>
      simp_all [optPop, optContains]

/-- Helper: an alias rename does not affect a key that is neither the
old nor the new name. -/
theorem replace_option_preserve (o : Options) (oldname newname k2 : String)
    (hol : k2 ≠ oldname) (hnw : k2 ≠ newname) :
    optGet (replace_option o oldname newname) k2 = optGet o k2 ∧
    optContains (replace_option o oldname newname) k2 = optContains o k2 := by
  rw [replace_option]
  split_ifs with h1 h2 <;>
    first
      | exact ⟨rfl, rfl⟩
      | exact ⟨by rw [optGet_optSet, if_neg hnw,
            optGet_optPop_ne o oldname k2 hol],
          by rw [optContains_optSet, if_neg hnw,
            optContains_optPop_ne o oldname k2 hol]⟩

/-- Helper: a defaulting statement does not affect another key. -/
theorem defaultOption_preserve (o : Options) (k k2 : String) (v : OptVal)
    (h : k2 ≠ k) :
    optGet (defaultOption o k v) k2 = optGet o k2 ∧
    optContains (defaultOption o k v) k2 = optContains o k2 := by
  rw [defaultOption]
  split_ifs with h1 <;>
    first
      | exact ⟨rfl, rfl⟩
      | exact ⟨by rw [optGet_optSet, if_neg h],
          by rw [optContains_optSet, if_neg h]⟩

/-- Helper: what `finalizeOptions` does to the `hessian_approximation`
key: sets it to `limited-memory` exactly when the caller did not
provide it and both Hessian arguments are `None`; leaves a
caller-provided value untouched. -/
theorem finalize_hessapprox (hN hpN : Bool) (tol : Option ℚ) (o0 : Options) :
    (optContains o0 "hessian_approximation" = false →
      optGet (finalizeOptions hN hpN tol o0) "hessian_approximation" =
        (if hN && hpN then some (.str "limited-memory") else none)) ∧
    (optContains o0 "hessian_approximation" = true →
      optGet (finalizeOptions hN hpN tol o0) "hessian_approximation" =
        optGet o0 "hessian_approximation") := by
  have hr1 := replace_option_preserve o0 "disp" "print_level"
    "hessian_approximation" (by decide) (by decide)
  have hr2 := replace_option_preserve (replace_option o0 "disp" "print_level")
    "maxiter" "max_iter" "hessian_approximation" (by decide) (by decide)
  have hd1 := defaultOption_preserve (renameOptions o0) "print_level"
    "hessian_approximation" (.num 0) (by decide)
  have hd2 := defaultOption_preserve (defaultOption (renameOptions o0)
      "print_level" (.num 0)) "tol" "hessian_approximation"
    (.num (tolDefault tol)) (by decide)
  have hd3 := defaultOption_preserve (defaultOption (defaultOption
      (renameOptions o0) "print_level" (.num 0)) "tol"
      (.num (tolDefault tol))) "mu_strategy" "hessian_approximation"
    (.str "adaptive") (by decide)
  have hget : optGet (defaultOption (defaultOption (defaultOption
      (renameOptions o0) "print_level" (.num 0)) "tol"
      (.num (tolDefault tol))) "mu_strategy" (.str "adaptive"))
      "hessian_approximation" = optGet o0 "hessian_approximation" := by
    rw [hd3.1, hd2.1, hd1.1]
    show optGet (replace_option (replace_option o0 "disp" "print_level")
      "maxiter" "max_iter") "hessian_approximation" = _
    rw [hr2.1, hr1.1]
  have hcon : optContains (defaultOption (defaultOption (defaultOption
      (renameOptions o0) "print_level" (.num 0)) "tol"
      (.num (tolDefault tol))) "mu_strategy" (.str "adaptive"))
      "hessian_approximation" = optContains o0 "hessian_approximation" := by
    rw [hd3.2, hd2.2, hd1.2]
    show optContains (replace_option (replace_option o0 "disp" "print_level")
      "maxiter" "max_iter") "hessian_approximation" = _
    rw [hr2.2, hr1.2]
  constructor
  · intro h0
    rw [finalizeOptions]
    rw [if_pos (by rw [hcon, h0]; simp)]
    cases hb : hN && hpN with
    | true =>
      rw [if_pos rfl, optGet_optSet, if_pos rfl]
      simp
    | false =>
      rw [if_neg (by simp), hget, optGet_none_of_not_contains o0 _ h0]
      simp
  · intro h0
    rw [finalizeOptions]
    rw [if_neg (by rw [hcon, h0]; simp)]
    exact hget

/-- Helper: facts available when the pre-solve setup of
`minimize_ipopt` succeeds: `hessp` was `None`, the Hessian coherence
check of the wrapper constructor passed, and the finalised options are
`finalizeOptions` applied to the Hessian flags. -/
theorem pre_ok_facts (ofun : Vec → ℚ) (ojac : ObjJacDecl)
    (hess : Option (Vec → Mat)) (hessp : Option (Vec → Vec → Vec))
    (cons : List ConSpec) (x0 : Vec) (tol : Option ℚ) (o0 : Options)
    (hok : (minimize_ipopt_pre ofun ojac hess hessp cons x0 tol o0).isOk = true) :
    hessp = none ∧
    (hess = none → ∀ c ∈ cons, c.chess = none) ∧
    (hess.isSome = true → ∀ c ∈ cons, c.chess.isSome = true) ∧
    preOpts (minimize_ipopt_pre ofun ojac hess hessp cons x0 tol o0) =
      finalizeOptions hess.isNone hessp.isNone tol o0 := by
  rcases hb : (get_constraint_bounds cons x0 bigBound).1 with e | ⟨cl, cu⟩
  · rw [minimize_ipopt_pre, hb] at hok
    simp [Bind.bind, Except.bind, Except.isOk, Except.toBool] at hok
  · rcases hsj : (get_sparse_jacobian_structure cons x0).1 with ⟨sj, r, c⟩
    rcases hmk : mkWrapper ofun ojac hess hessp cons eps0
        (get_constraint_dimensions cons x0).1 sj r c with e | w
    · rw [minimize_ipopt_pre, hb, hsj] at hok
      simp only [Bind.bind, Except.bind] at hok
      rw [hmk] at hok
      simp [Except.isOk, Except.toBool] at hok
    · have hmk2 := hmk
      simp only [mkWrapper] at hmk2
      split_ifs at hmk2 with h1 h2
      have hpn : hessp = none := by
        cases hessp with
        | none => rfl
        | some f => simp at h1
      have hall : ∀ con ∈ cons,
          (hess.isSome = true → ¬ con.chess = none) ∧
          (hess = none → con.chess = none) := by
        simpa using h2
      refine ⟨hpn, ?_, ?_, ?_⟩
      · intro he c2 hc2
        exact (hall c2 hc2).2 he
      · intro hs c2 hc2
        exact Option.ne_none_iff_isSome.1 ((hall c2 hc2).1 hs)
      · have hpre : minimize_ipopt_pre ofun ojac hess hessp cons x0 tol o0 =
            .ok (w, (cl, cu),
              finalizeOptions hess.isNone hessp.isNone tol o0) := by
          rw [minimize_ipopt_pre, hb, hsj]
          simp only [Bind.bind, Except.bind]
          rw [hmk]
          rfl
        rw [hpre]
        rfl

/-- C7: when the caller did not set `hessian_approximation` and the
pre-solve setup succeeds, `minimize_ipopt` selects the limited-memory
quasi-Newton approximation exactly when neither the objective nor any
constraint supplies a Hessian; a caller-set value is never
overwritten. -/
theorem c7_hessian_approximation (ofun : Vec → ℚ) (ojac : ObjJacDecl)
    (hess : Option (Vec → Mat)) (hessp : Option (Vec → Vec → Vec))
    (cons : List ConSpec) (x0 : Vec) (tol : Option ℚ) (o0 : Options)
    (hok : (minimize_ipopt_pre ofun ojac hess hessp cons x0 tol o0).isOk = true) :
    (optContains o0 "hessian_approximation" = false →
      (optGet (preOpts (minimize_ipopt_pre ofun ojac hess hessp cons x0 tol o0))
          "hessian_approximation" = some (.str "limited-memory") ↔
        (hess = none ∧ ∀ c ∈ cons, c.chess = none))) ∧
    (optContains o0 "hessian_approximation" = true →
      optGet (preOpts (minimize_ipopt_pre ofun ojac hess hessp cons x0 tol o0))
          "hessian_approximation" = optGet o0 "hessian_approximation") := by
  obtain ⟨hpn, himpl, _, hpre⟩ :=
    pre_ok_facts ofun ojac hess hessp cons x0 tol o0 hok
  rw [hpre]
  have hfin := finalize_hessapprox hess.isNone hessp.isNone tol o0
  subst hpn
  constructor
  · intro h0
    rw [hfin.1 h0]
    cases hess with
    | none =>
      refine iff_of_true (by simp) ⟨rfl, himpl rfl⟩
    | some oh =>
      refine iff_of_false (by simp) ?_
      rintro ⟨he, _⟩
      exact Option.noConfusion he
  · intro h0
    exact hfin.2 h0

/-- Witness for C7: with no Hessian anywhere and no caller options the
default is selected; a caller-provided `hessian_approximation` value is
kept verbatim. -/
theorem c7_hessian_approximation_witness :
    ((minimize_ipopt_pre (fun _ => (0 : ℚ)) (.callable (fun _ => []))
        none none [] [0] none []).isOk = true) ∧
    optGet (preOpts (minimize_ipopt_pre (fun _ => (0 : ℚ))
        (.callable (fun _ => [])) none none [] [0] none []))
      "hessian_approximation" = some (.str "limited-memory") ∧
    optGet (preOpts (minimize_ipopt_pre (fun _ => (0 : ℚ))
        (.callable (fun _ => [])) none none [] [0] none
        [("hessian_approximation", .str "exact")]))
      "hessian_approximation" = some (.str "exact") := by
  refine ⟨rfl, ?_, ?_⟩
  · exact ((c7_hessian_approximation (fun _ => (0 : ℚ))
      (.callable (fun _ => [])) none none [] [0] none [] rfl).1 rfl).2
      ⟨rfl, by simp⟩
  · rw [(c7_hessian_approximation (fun _ => (0 : ℚ))
      (.callable (fun _ => [])) none none [] [0] none
      [("hessian_approximation", .str "exact")] rfl).2 rfl]
    rfl

/-- Helper: after a callback sequence, `nfev` is its initial value plus
the number of `objective` invocations in the sequence. -/
theorem runEvents_nfev (w : Wrapper) (es : List CallEvent) :
    (runEvents w es).nfev = w.nfev + countObj es := by
  induction es generalizing w with
  | nil => simp [runEvents, countObj]
  | cons e t ih =>
    have h1 : runEvents w (e :: t) = runEvents (stepEvent w e) t := rfl
    rw [h1, ih]
    cases e <;> simp [stepEvent, Wrapper.objective, Wrapper.gradient,
      Wrapper.intermediate, countObj, List.countP_cons]
    omega

/-- Helper: after a callback sequence, `njev` is its initial value plus
the number of `gradient` invocations in the sequence. -/
theorem runEvents_njev (w : Wrapper) (es : List CallEvent) :
    (runEvents w es).njev = w.njev + countGrad es := by
  induction es generalizing w with
  | nil => simp [runEvents, countGrad]
  | cons e t ih =>
    have h1 : runEvents w (e :: t) = runEvents (stepEvent w e) t := rfl
    rw [h1, ih]
    cases e <;> simp [stepEvent, Wrapper.objective, Wrapper.gradient,
      Wrapper.intermediate, countGrad, List.countP_cons]
    omega

/-- Helper: no callback changes the stored Jacobian structure. -/
theorem runEvents_struct (w : Wrapper) (es : List CallEvent) :
    (runEvents w es).jac_nnz_row = w.jac_nnz_row ∧
    (runEvents w es).jac_nnz_col = w.jac_nnz_col := by
  induction es generalizing w with
  | nil => exact ⟨rfl, rfl⟩
  | cons e t ih =>
    have h1 : runEvents w (e :: t) = runEvents (stepEvent w e) t := rfl
    rw [h1]
    constructor
    · rw [(ih (stepEvent w e)).1]
      cases e <;> rfl
    · rw [(ih (stepEvent w e)).2]
      cases e <;> rfl

/-- C9: for an adapter produced by the constructor, the evaluation
counters start at 0; across any callback sequence, `nfev` equals the
number of `objective` calls and `njev` the number of `gradient` calls
(each such call adds exactly one, and no other callback touches them),
so both are monotone along the trace; `jacobianstructure` returns the
pair fixed at construction throughout. -/
theorem c9_counters (ofun : Vec → ℚ) (ojac : ObjJacDecl)
    (hess : Option (Vec → Mat)) (hessp : Option (Vec → Vec → Vec))
    (cons : List ConSpec) (eps : ℚ) (cd : List Nat) (sj : List Bool)
    (r c : List Nat) (w0 : Wrapper)
    (hw : mkWrapper ofun ojac hess hessp cons eps cd sj r c = .ok w0)
    (es : List CallEvent) :
    w0.nfev = 0 ∧ w0.njev = 0 ∧
    (runEvents w0 es).nfev = countObj es ∧
    (runEvents w0 es).njev = countGrad es ∧
    (runEvents w0 es).jacobianstructure = w0.jacobianstructure ∧
    (∀ k, (runEvents w0 (es.take k)).nfev ≤ (runEvents w0 es).nfev) ∧
    (∀ k, (runEvents w0 (es.take k)).njev ≤ (runEvents w0 es).njev) := by
  have hfields : w0.nfev = 0 ∧ w0.njev = 0 := by
    simp only [mkWrapper] at hw
    split_ifs at hw
    simp only [Except.ok.injEq] at hw
    subst hw
    exact ⟨rfl, rfl⟩
  refine ⟨hfields.1, hfields.2, ?_, ?_, ?_, ?_, ?_⟩
  · rw [runEvents_nfev, hfields.1, Nat.zero_add]
  · rw [runEvents_njev, hfields.2, Nat.zero_add]
  · rw [Wrapper.jacobianstructure, Wrapper.jacobianstructure,
      (runEvents_struct w0 es).1, (runEvents_struct w0 es).2]
  · intro k
    rw [runEvents_nfev, runEvents_nfev]
    exact Nat.add_le_add_left
      ((List.take_sublist k es).countP_le _) _
  · intro k
    rw [runEvents_njev, runEvents_njev]
    exact Nat.add_le_add_left
      ((List.take_sublist k es).countP_le _) _

/-- Witness for C9: the sample adapter starts with zero counters; after
the callback trace objective, gradient, constraints, objective,
intermediate, the counters are 2 and 1 and the structure is
unchanged. -/
theorem c9_counters_witness :
    mkWrapper f0 (.callable g0) none none [] eps0 [] [] [0] [1] = .ok w9 ∧
    (runEvents w9 [CallEvent.objCall [], CallEvent.gradCall [],
      CallEvent.consCall [], CallEvent.objCall [],
      CallEvent.interCall 5]).nfev = 2 ∧
    (runEvents w9 [CallEvent.objCall [], CallEvent.gradCall [],
      CallEvent.consCall [], CallEvent.objCall [],
      CallEvent.interCall 5]).njev = 1 ∧
    (runEvents w9 [CallEvent.objCall [], CallEvent.gradCall [],
      CallEvent.consCall [], CallEvent.objCall [],
      CallEvent.interCall 5]).jacobianstructure = ([0], [1]) := by
  have h := c9_counters f0 (.callable g0) none none [] eps0 [] [] [0] [1] w9
    rfl [CallEvent.objCall [], CallEvent.gradCall [], CallEvent.consCall [],
      CallEvent.objCall [], CallEvent.interCall 5]
  exact ⟨rfl, h.2.2.1, h.2.2.2.1, h.2.2.2.2.1⟩

/-- C1 counterexample: for the empty constraint list (`k = 0`, so the
claimed stacked length is `0`), the adapter `constraints(x)` does not
return a vector at all - the empty `np.hstack` raises - so the claim
fails in the degenerate case and holds only for nonempty lists. -/
theorem c1_counterexample :
    (mkWrapper f0 (.callable g0) none none [] eps0 [] [] [] []).map
      (fun w => w.constraints [1, 2]) = .ok none := rfl

/-- Witness for C4: an objective Hessian together with a constraint
group without one makes the constructor raise. -/
theorem c4_hessian_mismatch_witness :
    ∃ e, mkWrapper f0 (.callable g0) (some hessObj2) none [conEq] eps0
      [] [] [] [] = .error e :=
  (c4_hessian_mismatch f0 (.callable g0) (some hessObj2) [conEq] eps0
    [] [] [] []).2 (.inl ⟨rfl, conEq, List.mem_cons_self _ _, rfl⟩)

end Cyipopt
